import Mathlib

/-
Verification of the NoteCap note-synthesis pipeline (src/main.ts).

Strings are modelled as `List Char`.  JavaScript string operations used by
the code are embedded as explicit Lean functions:
  * `isJsSpace`     models the character class `\s` (on the code points the
                    pipeline can encounter);
  * `jsToLower`     models `String.prototype.toLowerCase` on the ASCII range
                    (the only range relevant to the functions under study);
  * `splitWs`       models `str.split(/\s+/)` including the empty fields JS
                    produces at the ends (`"".split(/\s+/) = [""]`);
  * `jsTrim`        models `str.trim()`;
  * `collapseRunsWith` is the common shape of `str.replace(/X+/g, …)` where a
                    maximal run of characters satisfying a class is replaced
                    by a single character.
-/

namespace NoteCap

/-- Characters matched by the JS regex class `\s` (ASCII part plus NBSP;
the pipeline never feeds other Unicode space characters to these functions). -/
def isJsSpace (c : Char) : Bool :=
  c = ' ' || c = '\t' || c = '\n' || c = '\x0b' || c = '\x0c' || c = '\r' ||
  c = Char.ofNat 0xa0

/-- `String.prototype.toLowerCase`, restricted to the ASCII letters. -/
def jsToLower (c : Char) : Char :=
  if 'A' ≤ c ∧ c ≤ 'Z' then Char.ofNat (c.toNat + 32) else c

/-- Helper of `splitWs`: `acc` is the reversed current field, `inWs` records
whether the scanner is inside a whitespace run whose field has already been
emitted. -/
def splitWsGo : List Char → List Char → Bool → List (List Char)
  | [], acc, _ => [acc.reverse]
  | c :: rest, acc, inWs =>
    if isJsSpace c then
      if inWs then splitWsGo rest acc true
      else acc.reverse :: splitWsGo rest [] true
    else splitWsGo rest (c :: acc) false

/-- JS `str.split(/\s+/)`: fields between maximal whitespace runs, with an
empty field at an end when the string starts/ends with whitespace, and
`[""]` for the empty string. -/
def splitWs (l : List Char) : List (List Char) :=
  splitWsGo l [] false

/-- The word set used by `calculateSimilarity`: `new Set(text.toLowerCase().split(/\s+/))`. -/
def wordSet (t : List Char) : Finset (List Char) :=
  (splitWs (t.map jsToLower)).toFinset

/-- `calculateSimilarity` (src/main.ts): Jaccard ratio of the two word sets.
`new Set([...words1].filter(x => words2.has(x)))` is the intersection and
`new Set([...words1, ...words2])` the union; the division is modelled in `ℚ`. -/
def calculateSimilarity (t1 t2 : List Char) : ℚ :=
  (((wordSet t1) ∩ (wordSet t2)).card : ℚ) / (((wordSet t1) ∪ (wordSet t2)).card : ℚ)

theorem splitWsGo_ne_nil (l : List Char) : ∀ acc inWs, splitWsGo l acc inWs ≠ [] := by
  induction l with
  | nil => intro acc inWs; simp [splitWsGo]
  | cons c rest ih =>
    intro acc inWs
    rw [splitWsGo]
    by_cases hc : isJsSpace c
    · simp only [hc, if_true]
      cases inWs with
      | true => exact ih acc true
      | false => simp
    · simp only [hc, if_false]
      exact ih (c :: acc) false

theorem splitWs_ne_nil (l : List Char) : splitWs l ≠ [] :=
  splitWsGo_ne_nil l [] false

theorem wordSet_nonempty (t : List Char) : (wordSet t).Nonempty := by
  have h := splitWs_ne_nil (t.map jsToLower)
  exact ⟨(splitWs (t.map jsToLower)).head h,
    List.mem_toFinset.mpr (List.head_mem h)⟩

/-- C10: `calculateSimilarity` is a total function with values in the closed
interval `[0,1]`: JS splitting of any string on whitespace (here `splitWs`)
yields at least one field, so both word sets — and hence their union — are
nonempty and the division `intersection.size / union.size` never divides
by zero. -/
theorem calculateSimilarity_total_bounded (t1 t2 : List Char) :
    splitWs t1 ≠ [] ∧ 0 < ((wordSet t1) ∪ (wordSet t2)).card ∧
      0 ≤ calculateSimilarity t1 t2 ∧ calculateSimilarity t1 t2 ≤ 1 := by
  have hunion : 0 < ((wordSet t1) ∪ (wordSet t2)).card := by
    apply Finset.card_pos.mpr
    exact (wordSet_nonempty t1).mono Finset.subset_union_left
  have hcard : ((wordSet t1) ∩ (wordSet t2)).card ≤ ((wordSet t1) ∪ (wordSet t2)).card :=
    Finset.card_le_card (Finset.inter_subset_union)
  have hupos : (0 : ℚ) < (((wordSet t1) ∪ (wordSet t2)).card : ℚ) := by
    exact_mod_cast hunion
  refine ⟨splitWs_ne_nil t1, hunion, ?_, ?_⟩
  · unfold calculateSimilarity
    positivity
  · unfold calculateSimilarity
    rw [div_le_one hupos]
    exact_mod_cast hcard

/-- C1 counterexample: the claim asserts `similarity("","") == 0` with an
explicit empty-union guard; the code has no guard and JS splits the empty
string into `[""]`, so both word sets are the singleton set containing the
empty word and the similarity is `1/1 = 1`, not `0`. -/
theorem calculateSimilarity_empty_ne_zero :
    calculateSimilarity [] [] ≠ 0 := by
  unfold calculateSimilarity
  have h1 : ((wordSet [] : Finset (List Char)) ∩ wordSet []).card = 1 := by decide
  have h2 : ((wordSet [] : Finset (List Char)) ∪ wordSet []).card = 1 := by decide
  rw [h1, h2]
  norm_num

/-- C1 amended: both empty texts have word set consisting of the single empty
word (JS `"".split(/\s+/)` is `[""]`), so the union is nonempty, no division
by zero occurs, and `calculateSimilarity "" "" = 1` — there is no explicit
empty-union guard in `calculateSimilarity`, and none is needed. -/
theorem calculateSimilarity_empty_eq_one :
    calculateSimilarity [] [] = 1 ∧ wordSet [] = {([] : List Char)} := by
  constructor
  · unfold calculateSimilarity
    have h1 : ((wordSet [] : Finset (List Char)) ∩ wordSet []).card = 1 := by decide
    have h2 : ((wordSet [] : Finset (List Char)) ∪ wordSet []).card = 1 := by decide
    rw [h1, h2]
    norm_num
  · decide

/-! ### cleanupText (src/main.ts)

`cleanupText` chains six JS `replace` passes and a `trim`.  The three
run-collapsing regex replaces (punctuation runs to `$1`, whitespace runs to a
space, and in `formatTag` whitespace runs and hyphen runs to one hyphen) share
one shape: a maximal run of
characters of a class is replaced by a single character (for `$1`, the last
character of the run).  `collapseRunsGo` is that shape: `f` produces the
replacement state when a run starts, `g` updates it on each further run
character, and the pending state is emitted when the run ends. -/

def collapseRunsGo (p : Char → Bool) (f : Char → Char) (g : Char → Char → Char) :
    List Char → Option Char → List Char
  | [], none => []
  | [], some r => [r]
  | c :: rest, none =>
    if p c then collapseRunsGo p f g rest (some (f c))
    else c :: collapseRunsGo p f g rest none
  | c :: rest, some r =>
    if p c then collapseRunsGo p f g rest (some (g r c))
    else r :: c :: collapseRunsGo p f g rest none

def collapseRuns (p : Char → Bool) (f : Char → Char) (g : Char → Char → Char)
    (l : List Char) : List Char :=
  collapseRunsGo p f g l none

/-- The punctuation class `[.,!?;:]` of the first `replace` in `cleanupText`. -/
def isPunct (c : Char) : Bool :=
  c = '.' || c = ',' || c = '!' || c = '?' || c = ';' || c = ':'

/-- `.replace(/([.,!?;:])+/g, "$1")`: a punctuation run becomes its last character. -/
def collapsePunct : List Char → List Char :=
  collapseRuns isPunct id (fun _ c => c)

/-- `.replace(/\s+/g, " ")`: a whitespace run becomes a single space. -/
def collapseWsToSpace : List Char → List Char :=
  collapseRuns isJsSpace (fun _ => ' ') (fun r _ => r)

/-- `.replace(/[|]/g, "I")`. -/
def fixBars (c : Char) : Char := if c = '|' then 'I' else c

/-- `.replace(/[1Il]/g, "l")`. -/
def fixEls (c : Char) : Char := if c = '1' || c = 'I' || c = 'l' then 'l' else c

/-- `.replace(/[0O]/g, "o")`. -/
def fixOhs (c : Char) : Char := if c = '0' || c = 'O' then 'o' else c

/-- The class kept by `.replace(/[^\x20-\x7E\n]/g, "")`. -/
def isPrintableOrNl (c : Char) : Bool :=
  (0x20 ≤ c.toNat && c.toNat ≤ 0x7e) || c = '\n'

/-- JS `str.trim()`. -/
def jsTrim (l : List Char) : List Char :=
  (l.dropWhile isJsSpace).rdropWhile isJsSpace

/-- `cleanupText` (src/main.ts): collapse repeated punctuation, repair OCR
confusions (`|`→`I`, `1/I/l`→`l`, `0/O`→`o`), strip characters outside
printable ASCII (newline excepted), collapse whitespace runs to one space,
and trim. -/
def cleanupText (l : List Char) : List Char :=
  jsTrim (collapseWsToSpace
    (((((collapsePunct l).map fixBars).map fixEls).map fixOhs).filter isPrintableOrNl))

/-- C5 counterexample: `cleanupText` is not idempotent.  On `".\t."` the
punctuation-collapsing pass sees no run, but stripping the (non-printable)
tab afterwards creates the run `".."`, which a second application collapses
to `"."`. -/
theorem cleanupText_not_idempotent :
    cleanupText (cleanupText ['.', '\t', '.']) ≠ cleanupText ['.', '\t', '.'] := by
  decide

/-- No two adjacent characters of `l` both satisfy `p`. -/
def NoRun (p : Char → Bool) (l : List Char) : Prop :=
  l.Chain' fun a b => ¬(p a = true ∧ p b = true)

theorem collapseRunsGo_noRun (p : Char → Bool) (f : Char → Char) (g : Char → Char → Char)
    (l : List Char) : ∀ o : Option Char, NoRun p (collapseRunsGo p f g l o) := by
  induction l with
  | nil =>
    intro o
    cases o with
    | none => simp [collapseRunsGo, NoRun]
    | some r => simp [collapseRunsGo, NoRun]
  | cons c rest ih =>
    intro o
    cases o with
    | none =>
      by_cases hc : p c
      · simpa [collapseRunsGo, hc] using ih (some (f c))
      · simp only [collapseRunsGo, if_neg hc]
        rw [NoRun, List.chain'_cons']
        refine ⟨fun y _ h => hc h.1, ih none⟩
    | some r =>
      by_cases hc : p c
      · simpa [collapseRunsGo, hc] using ih (some (g r c))
      · simp only [collapseRunsGo, if_neg hc]
        rw [NoRun, List.chain'_cons']
        constructor
        · intro y hy
          simp only [List.head?_cons, Option.mem_def, Option.some.injEq] at hy
          subst hy
          exact fun h => hc h.2
        · rw [List.chain'_cons']
          exact ⟨fun y _ h => hc h.1, ih none⟩

theorem collapseRunsGo_some_head_not (p : Char → Bool) (f : Char → Char)
    (g : Char → Char → Char) (l : List Char) (r : Char)
    (h : ∀ d ∈ l.head?, p d = false) :
    collapseRunsGo p f g l (some r) = r :: collapseRunsGo p f g l none := by
  cases l with
  | nil => simp [collapseRunsGo]
  | cons c rest =>
    have hc : p c = false := h c (by simp)
    simp [collapseRunsGo, hc]

theorem collapseRuns_eq_self (p : Char → Bool) (f : Char → Char) (g : Char → Char → Char) :
    ∀ l : List Char, (∀ c ∈ l, p c = true → f c = c) → NoRun p l →
      collapseRuns p f g l = l := by
  intro l
  induction l with
  | nil => intro _ _; simp [collapseRuns, collapseRunsGo]
  | cons c rest ih =>
    intro hf h
    unfold collapseRuns at *
    by_cases hc : p c
    · simp only [collapseRunsGo, if_pos hc]
      have hhead : ∀ d ∈ rest.head?, p d = false := by
        intro d hd
        have := (List.chain'_cons'.mp h).1 d hd
        by_contra hpd
        exact this ⟨hc, by simpa using hpd⟩
      rw [hf c (by simp) hc, collapseRunsGo_some_head_not p f g rest c hhead]
      have := ih (fun x hx => hf x (by simp [hx])) (List.Chain'.tail h)
      rw [this]
    · simp only [collapseRunsGo, if_neg hc]
      have := ih (fun x hx => hf x (by simp [hx])) (List.Chain'.tail h)
      rw [this]

/-- Character-predicate transport: every character of the output of a run
collapse either is an untouched (non-run) input character or arose from the
replacement functions. -/
theorem collapseRunsGo_out (p : Char → Bool) (f : Char → Char) (g : Char → Char → Char)
    (Q : Char → Prop) (hf : ∀ c, Q (f c)) (hg : ∀ r c, Q r → Q (g r c)) :
    ∀ (l : List Char) (o : Option Char), (∀ c ∈ l, p c = false → Q c) →
      (∀ r ∈ o, Q r) → ∀ x ∈ collapseRunsGo p f g l o, Q x := by
  intro l
  induction l with
  | nil =>
    intro o hl ho x hx
    cases o with
    | none => simp [collapseRunsGo] at hx
    | some r => simp [collapseRunsGo] at hx; exact hx ▸ ho r (by simp)
  | cons c rest ih =>
    intro o hl ho x hx
    have hrest : ∀ c ∈ rest, p c = false → Q c := fun d hd => hl d (by simp [hd])
    cases o with
    | none =>
      by_cases hc : p c
      · simp only [collapseRunsGo, if_pos hc] at hx
        exact ih (some (f c)) hrest (by simpa using hf c) x hx
      · simp only [collapseRunsGo, if_neg hc, List.mem_cons] at hx
        rcases hx with rfl | hx
        · exact hl x (by simp) (by simpa using hc)
        · exact ih none hrest (by simp) x hx
    | some r =>
      have hr : Q r := ho r (by simp)
      by_cases hc : p c
      · simp only [collapseRunsGo, if_pos hc] at hx
        exact ih (some (g r c)) hrest (by simpa using hg r c hr) x hx
      · simp only [collapseRunsGo, if_neg hc, List.mem_cons] at hx
        rcases hx with rfl | hx
        · exact hr
        · rcases hx with rfl | hx
          · exact hl x (by simp) (by simpa using hc)
          · exact ih none hrest (by simp) x hx

/-- Character-predicate transport when the replacement functions preserve the
predicate (used with `Q` = printable for the punctuation collapse, whose
replacement is the last character of the run). -/
theorem collapseRunsGo_forall (p : Char → Bool) (f : Char → Char) (g : Char → Char → Char)
    (Q : Char → Prop) (hf : ∀ c, Q c → Q (f c)) (hg : ∀ r c, Q r → Q c → Q (g r c)) :
    ∀ (l : List Char) (o : Option Char), (∀ c ∈ l, Q c) →
      (∀ r ∈ o, Q r) → ∀ x ∈ collapseRunsGo p f g l o, Q x := by
  intro l
  induction l with
  | nil =>
    intro o hl ho x hx
    cases o with
    | none => simp [collapseRunsGo] at hx
    | some r => simp [collapseRunsGo] at hx; exact hx ▸ ho r (by simp)
  | cons c rest ih =>
    intro o hl ho x hx
    have hcQ : Q c := hl c (by simp)
    have hrest : ∀ d ∈ rest, Q d := fun d hd => hl d (by simp [hd])
    cases o with
    | none =>
      by_cases hc : p c
      · simp only [collapseRunsGo, if_pos hc] at hx
        exact ih (some (f c)) hrest (by simpa using hf c hcQ) x hx
      · simp only [collapseRunsGo, if_neg hc, List.mem_cons] at hx
        rcases hx with rfl | hx
        · exact hcQ
        · exact ih none hrest (by simp) x hx
    | some r =>
      have hr : Q r := ho r (by simp)
      by_cases hc : p c
      · simp only [collapseRunsGo, if_pos hc] at hx
        exact ih (some (g r c)) hrest (by simpa using hg r c hr hcQ) x hx
      · simp only [collapseRunsGo, if_neg hc, List.mem_cons] at hx
        rcases hx with rfl | hx
        · exact hr
        · rcases hx with rfl | hx
          · exact hcQ
          · exact ih none hrest (by simp) x hx

/-- Collapsing runs of class `p` cannot create an adjacent pair of characters
of another class `q`, provided the replacement characters are outside `q`. -/
theorem collapseRunsGo_preserves (p : Char → Bool) (f : Char → Char) (g : Char → Char → Char)
    (q : Char → Bool) (hf : ∀ c, q (f c) = false) (hg : ∀ r c, q r = false → q (g r c) = false) :
    ∀ (l : List Char) (o : Option Char), (∀ r ∈ o, q r = false) → NoRun q l →
      NoRun q (collapseRunsGo p f g l o) ∧
        (∀ y ∈ (collapseRunsGo p f g l o).head?, q y = false ∨ (o = none ∧ l.head? = some y)) := by
  intro l
  induction l with
  | nil =>
    intro o ho _
    cases o with
    | none => simp [collapseRunsGo, NoRun]
    | some r =>
      refine ⟨by simp [collapseRunsGo, NoRun], ?_⟩
      intro y hy
      simp only [collapseRunsGo, List.head?_cons, Option.mem_def, Option.some.injEq] at hy
      exact Or.inl (hy ▸ ho r (by simp))
  | cons c rest ih =>
    intro o ho h
    have htail : NoRun q rest := List.Chain'.tail h
    have hhd : ∀ y ∈ rest.head?, ¬(q c = true ∧ q y = true) := (List.chain'_cons'.mp h).1
    cases o with
    | none =>
      by_cases hc : p c
      · simp only [collapseRunsGo, if_pos hc]
        obtain ⟨h1, h2⟩ := ih (some (f c)) (by simpa using hf c) htail
        refine ⟨h1, fun y hy => ?_⟩
        rcases h2 y hy with hq | ⟨hcon, _⟩
        · exact Or.inl hq
        · exact absurd hcon (by simp)
      · simp only [collapseRunsGo, if_neg hc]
        obtain ⟨h1, h2⟩ := ih none (by simp) htail
        constructor
        · rw [NoRun, List.chain'_cons']
          refine ⟨fun y hy => ?_, h1⟩
          rcases h2 y hy with hq | ⟨_, hhead⟩
          · exact fun hqq => by simp [hq] at hqq
          · exact hhd y hhead
        · intro y hy
          simp only [List.head?_cons, Option.mem_def, Option.some.injEq] at hy
          subst hy
          exact Or.inr (by simp)
    | some r =>
      have hqr : q r = false := ho r (by simp)
      by_cases hc : p c
      · simp only [collapseRunsGo, if_pos hc]
        obtain ⟨h1, h2⟩ := ih (some (g r c)) (by simpa using hg r c hqr) htail
        refine ⟨h1, fun y hy => ?_⟩
        rcases h2 y hy with hq | ⟨hcon, _⟩
        · exact Or.inl hq
        · exact absurd hcon (by simp)
      · simp only [collapseRunsGo, if_neg hc]
        obtain ⟨h1, h2⟩ := ih none (by simp) htail
        constructor
        · rw [NoRun, List.chain'_cons']
          constructor
          · intro y hy
            simp only [List.head?_cons, Option.mem_def, Option.some.injEq] at hy
            subst hy
            exact fun hqq => by simp [hqr] at hqq
          · rw [List.chain'_cons']
            refine ⟨fun y hy => ?_, h1⟩
            rcases h2 y hy with hq | ⟨_, hhead⟩
            · exact fun hqq => by simp [hq] at hqq
            · exact hhd y hhead
        · intro y hy
          simp only [List.head?_cons, Option.mem_def, Option.some.injEq] at hy
          subst hy
          exact Or.inl hqr

theorem jsTrim_within (l : List Char) : jsTrim l <:+: l := by
  unfold jsTrim
  exact List.IsInfix.trans (List.rdropWhile_prefix isJsSpace _).isInfix
    (List.dropWhile_suffix isJsSpace).isInfix

theorem jsTrim_subset (l : List Char) : ∀ x ∈ jsTrim l, x ∈ l :=
  fun _ hx => (jsTrim_within l).sublist.subset hx

theorem jsTrim_idempotent (l : List Char) : jsTrim (jsTrim l) = jsTrim l := by
  unfold jsTrim
  have h1 : (((l.dropWhile isJsSpace).rdropWhile isJsSpace).dropWhile isJsSpace) =
      (l.dropWhile isJsSpace).rdropWhile isJsSpace := by
    rw [List.dropWhile_eq_self_iff]
    intro hl
    have hpre := List.rdropWhile_prefix isJsSpace (l.dropWhile isJsSpace)
    have hlen : 0 < (l.dropWhile isJsSpace).length := lt_of_lt_of_le hl hpre.length_le
    have hget := List.IsPrefix.getElem hpre hl
    simp only [List.get_eq_getElem, hget]
    have hne : l.dropWhile isJsSpace ≠ [] := by
      intro hnil
      rw [hnil] at hlen
      simp at hlen
    have := List.head_dropWhile_not isJsSpace l hne
    rw [List.head_eq_getElem] at this
    simp [this]
  rw [h1, List.rdropWhile_idempotent]

theorem map_eq_self_of (l : List Char) (f : Char → Char) (h : ∀ x ∈ l, f x = x) :
    l.map f = l := by
  conv_rhs => rw [← List.map_id l]
  exact List.map_congr_left h

/-- The characters rewritten by the three OCR-confusion repairs. -/
def isFixable (c : Char) : Bool :=
  c = '|' || c = '1' || c = 'I' || c = '0' || c = 'O'

theorem fixBars_punct (c : Char) : isPunct (fixBars c) = isPunct c := by
  unfold fixBars
  split_ifs with h
  · subst h; decide
  · rfl

theorem fixEls_punct (c : Char) : isPunct (fixEls c) = isPunct c := by
  unfold fixEls
  split_ifs with h
  · simp only [Bool.or_eq_true, decide_eq_true_eq] at h
    rcases h with (rfl | rfl) | rfl <;> decide
  · rfl

theorem fixOhs_punct (c : Char) : isPunct (fixOhs c) = isPunct c := by
  unfold fixOhs
  split_ifs with h
  · simp only [Bool.or_eq_true, decide_eq_true_eq] at h
    rcases h with rfl | rfl <;> decide
  · rfl

theorem fixBars_printable (c : Char) (h : isPrintableOrNl c = true) :
    isPrintableOrNl (fixBars c) = true := by
  unfold fixBars
  split_ifs with hc
  · decide
  · exact h

theorem fixEls_printable (c : Char) (h : isPrintableOrNl c = true) :
    isPrintableOrNl (fixEls c) = true := by
  unfold fixEls
  split_ifs with hc
  · decide
  · exact h

theorem fixOhs_printable (c : Char) (h : isPrintableOrNl c = true) :
    isPrintableOrNl (fixOhs c) = true := by
  unfold fixOhs
  split_ifs with hc
  · decide
  · exact h

theorem fixComposition_not_fixable (c : Char) :
    isFixable (fixOhs (fixEls (fixBars c))) = false := by
  unfold fixBars fixEls fixOhs
  split_ifs with h1 h2 h3 h2 h3 <;> first
    | decide
    | simp_all [isFixable]

theorem fixBars_id_of_not_fixable (c : Char) (h : isFixable c = false) : fixBars c = c := by
  unfold fixBars
  simp only [isFixable, Bool.or_eq_false_iff, decide_eq_false_iff_not] at h
  rw [if_neg h.1.1.1.1]

theorem fixEls_id_of_not_fixable (c : Char) (h : isFixable c = false) : fixEls c = c := by
  unfold fixEls
  simp only [isFixable, Bool.or_eq_false_iff, decide_eq_false_iff_not] at h
  by_cases hl : c = 'l'
  · subst hl; decide
  · rw [if_neg]
    simp only [Bool.or_eq_true, decide_eq_true_eq]
    push_neg
    exact ⟨⟨h.1.1.1.2, h.1.1.2⟩, hl⟩

theorem fixOhs_id_of_not_fixable (c : Char) (h : isFixable c = false) : fixOhs c = c := by
  unfold fixOhs
  simp only [isFixable, Bool.or_eq_false_iff, decide_eq_false_iff_not] at h
  rw [if_neg]
  simp only [Bool.or_eq_true, decide_eq_true_eq]
  push_neg
  exact ⟨h.1.2, h.2⟩

/-- C5 amended: `cleanupText` is idempotent on strings all of whose characters
are printable ASCII or newline.  (In general it is not idempotent — see the
counterexample — because stripping a non-printable character can join two
punctuation marks into a run that only a second pass collapses.) -/
theorem cleanupText_idempotent_printable (l : List Char)
    (h : ∀ c ∈ l, isPrintableOrNl c = true) :
    cleanupText (cleanupText l) = cleanupText l := by
  have pr : ∀ a b : Prop, a = b → a → b := fun a b hab ha => hab ▸ ha
  set s1 := collapsePunct l with hs1
  set s2 := ((s1.map fixBars).map fixEls).map fixOhs with hs2
  set s3 := s2.filter isPrintableOrNl with hs3
  set s4 := collapseWsToSpace s3 with hs4
  have hA : ∀ c ∈ s1, isPrintableOrNl c = true := by
    intro c hc
    exact collapseRunsGo_forall isPunct id (fun _ c => c) (fun c => isPrintableOrNl c = true)
      (fun _ hq => hq) (fun _ _ _ hq => hq) l none h (by simp) c hc
  have hB : ∀ c ∈ s2, isPrintableOrNl c = true := by
    intro c hc
    rw [hs2] at hc
    simp only [List.mem_map] at hc
    obtain ⟨b, ⟨a, ⟨x, hx, rfl⟩, rfl⟩, rfl⟩ := hc
    exact fixOhs_printable _ (fixEls_printable _ (fixBars_printable _ (hA x hx)))
  have hC : s3 = s2 := List.filter_eq_self.mpr hB
  have hD : NoRun isPunct s1 := collapseRunsGo_noRun isPunct id (fun _ c => c) l none
  have hstep : ∀ f : Char → Char, (∀ c, isPunct (f c) = isPunct c) →
      ∀ m : List Char, NoRun isPunct m → NoRun isPunct (m.map f) := by
    intro f hfp m hm
    rw [NoRun]
    refine List.chain'_map_of_chain' f ?_ hm
    intro a b hab hcon
    exact hab ⟨(hfp a) ▸ hcon.1, (hfp b) ▸ hcon.2⟩
  have hE : NoRun isPunct s2 := by
    rw [hs2]
    exact hstep fixOhs fixOhs_punct _
      (hstep fixEls fixEls_punct _ (hstep fixBars fixBars_punct _ hD))
  have hF : NoRun isPunct s4 := by
    rw [hs4]
    exact (collapseRunsGo_preserves isJsSpace (fun _ => ' ') (fun r _ => r) isPunct
      (fun _ => rfl) (fun r c hq => hq) s3 none (by simp) (hC ▸ hE)).1
  have hWs4 : NoRun isJsSpace s4 :=
    collapseRunsGo_noRun isJsSpace (fun _ => ' ') (fun r _ => r) s3 none
  have hSpace4 : ∀ c ∈ s4, isJsSpace c = true → c = ' ' := by
    intro c hc
    refine collapseRunsGo_out isJsSpace (fun _ => ' ') (fun r _ => r)
      (fun c => isJsSpace c = true → c = ' ') (fun _ _ => rfl) (fun r _ hq => hq)
      s3 none ?_ (by simp) c hc
    intro d _ hd hcon
    rw [hd] at hcon
    cases hcon
  have hsp : isPrintableOrNl ' ' = true := by decide
  have hsf : isFixable ' ' = false := by decide
  have hPrint4 : ∀ c ∈ s4, isPrintableOrNl c = true := by
    intro c hc
    refine collapseRunsGo_out isJsSpace (fun _ => ' ') (fun r _ => r)
      (fun c => isPrintableOrNl c = true) (fun _ => hsp) (fun r _ hq => hq)
      s3 none ?_ (by simp) c hc
    intro d hd _
    exact hB d (hC ▸ hd)
  have hFix4 : ∀ c ∈ s4, isFixable c = false := by
    intro c hc
    refine collapseRunsGo_out isJsSpace (fun _ => ' ') (fun r _ => r)
      (fun c => isFixable c = false) (fun _ => hsf) (fun r _ hq => hq)
      s3 none ?_ (by simp) c hc
    intro d hd _
    rw [hC, hs2] at hd
    simp only [List.mem_map] at hd
    obtain ⟨b, ⟨a, ⟨x, _, rfl⟩, rfl⟩, rfl⟩ := hd
    exact fixComposition_not_fixable x
  -- Properties of r := jsTrim s4 = cleanupText l
  have hr : cleanupText l = jsTrim s4 := by
    rw [cleanupText, hs4, hs3, hs2, hs1]
  set r := jsTrim s4 with hrdef
  have hrsub : ∀ c ∈ r, c ∈ s4 := jsTrim_subset s4
  have hrPunct : NoRun isPunct r := List.Chain'.infix hF (jsTrim_within s4)
  have hrWs : NoRun isJsSpace r := List.Chain'.infix hWs4 (jsTrim_within s4)
  have hrSpace : ∀ c ∈ r, isJsSpace c = true → c = ' ' :=
    fun c hc => hSpace4 c (hrsub c hc)
  have hrPrint : ∀ c ∈ r, isPrintableOrNl c = true :=
    fun c hc => hPrint4 c (hrsub c hc)
  have hrFix : ∀ c ∈ r, isFixable c = false :=
    fun c hc => hFix4 c (hrsub c hc)
  -- Now compute cleanupText r stage by stage.
  have e1 : collapsePunct r = r :=
    collapseRuns_eq_self isPunct id (fun _ c => c) r (fun _ _ _ => rfl) hrPunct
  have e2 : ((r.map fixBars).map fixEls).map fixOhs = r := by
    rw [map_eq_self_of r fixBars (fun x hx => fixBars_id_of_not_fixable x (hrFix x hx)),
        map_eq_self_of r fixEls (fun x hx => fixEls_id_of_not_fixable x (hrFix x hx)),
        map_eq_self_of r fixOhs (fun x hx => fixOhs_id_of_not_fixable x (hrFix x hx))]
  have e3 : r.filter isPrintableOrNl = r := List.filter_eq_self.mpr hrPrint
  have e4 : collapseWsToSpace r = r := by
    apply collapseRuns_eq_self isJsSpace (fun _ => ' ') (fun r _ => r) r _ hrWs
    intro c hc hcws
    exact (hrSpace c hc hcws).symm
  have e5 : jsTrim r = r := by
    rw [hrdef, jsTrim_idempotent]
  rw [hr, cleanupText, e1, e2, e3, e4, e5]

/-- C5 witness: the idempotence theorem applied to the concrete printable
input `"a.. b"`. -/
theorem cleanupText_idempotent_printable_witness :
    (∀ c ∈ ['a', '.', '.', ' ', 'b'], isPrintableOrNl c = true) ∧
      cleanupText (cleanupText ['a', '.', '.', ' ', 'b']) = cleanupText ['a', '.', '.', ' ', 'b'] :=
  ⟨by decide, cleanupText_idempotent_printable ['a', '.', '.', ' ', 'b'] (by decide)⟩

/-! ### processWithTesseract (src/main.ts)

The OCR loop is modelled on the outcomes of the three page-segmentation
attempts: `none` means `scheduler.addJob` threw for that mode (the `catch`
logs and continues), `some raw` means it returned `raw` as `data.text`.
The surrounding engine guard (`if (!this.scheduler) throw`) is the Boolean
`schedulerReady` parameter and the thrown error the `Except.error` result. -/

/-- `text.split(/\s+/).length`: the word count of an attempt. -/
def wcOf (t : List Char) : Nat := (splitWs t).length

/-- One iteration of the `for (const mode of psmModes)` loop: the state is
`(bestResult, maxWordCount)`; a successful attempt's text is trimmed and
replaces the best exactly when its word count is strictly greater. -/
def bestStep (st : List Char × Nat) (r : Option (List Char)) : List Char × Nat :=
  match r with
  | none => st
  | some raw =>
    let text := jsTrim raw
    if wcOf text > st.2 then (text, wcOf text) else st

/-- `processWithTesseract` (src/main.ts): run the attempts in order starting
from `bestResult = ""`, `maxWordCount = 0`, and return `cleanupText` of the
best result.  There is no failure path once the engine is initialized. -/
def processWithTesseract (schedulerReady : Bool) (results : List (Option (List Char))) :
    Except (List Char) (List Char) :=
  if !schedulerReady then Except.error ("OCR engine not initialized".toList)
  else Except.ok (cleanupText (results.foldl bestStep ([], 0)).1)

/-- `bestStep` restricted to successful, already-trimmed attempts. -/
def bestStepT (st : List Char × Nat) (t : List Char) : List Char × Nat :=
  if wcOf t > st.2 then (t, wcOf t) else st

/-- Modelled from the spec sentence "retains the result with the highest word
count across all three attempts (tie → first-seen wins)": the highest word
count among the candidates. -/
def listMaxWc (cands : List (List Char)) : Nat := (cands.map wcOf).foldr max 0

/-- Modelled from the spec sentence above: the first candidate attaining the
highest word count (the empty string when there is no candidate). -/
def specBestOfThree (cands : List (List Char)) : List Char :=
  (cands.find? fun t => wcOf t == listMaxWc cands).getD []

theorem foldl_bestStep_eq (results : List (Option (List Char))) :
    ∀ st, results.foldl bestStep st = ((results.filterMap id).map jsTrim).foldl bestStepT st := by
  induction results with
  | nil => intro st; rfl
  | cons r rest ih =>
    intro st
    cases r with
    | none => simpa using ih st
    | some raw => simpa [bestStep, bestStepT] using ih (bestStepT st (jsTrim raw))

theorem wcOf_pos (t : List Char) : 0 < wcOf t := by
  unfold wcOf
  exact List.length_pos.mpr (splitWs_ne_nil t)

theorem listMaxWc_pos (cands : List (List Char)) (h : cands ≠ []) : 0 < listMaxWc cands := by
  cases cands with
  | nil => exact absurd rfl h
  | cons t ts =>
    have := wcOf_pos t
    simp only [listMaxWc, List.map_cons, List.foldr_cons]
    omega

theorem listMaxWc_cons (t : List Char) (ts : List (List Char)) :
    listMaxWc (t :: ts) = max (wcOf t) (listMaxWc ts) := by
  simp [listMaxWc]

theorem listMaxWc_attained (cands : List (List Char)) (h : 0 < listMaxWc cands) :
    ∃ x ∈ cands, wcOf x = listMaxWc cands := by
  induction cands with
  | nil => simp [listMaxWc] at h
  | cons t ts ih =>
    have hcase : listMaxWc (t :: ts) = wcOf t ∨ listMaxWc (t :: ts) = listMaxWc ts := by
      rw [listMaxWc_cons]
      rcases Nat.le_total (wcOf t) (listMaxWc ts) with hle | hle
      · exact Or.inr (Nat.max_eq_right hle)
      · exact Or.inl (Nat.max_eq_left hle)
    rcases hcase with heq | heq
    · exact ⟨t, by simp, heq.symm⟩
    · obtain ⟨x, hx, hwx⟩ := ih (by omega)
      exact ⟨x, by simp [hx], by omega⟩

theorem find?_maxWc_isSome (cands : List (List Char)) (h : 0 < listMaxWc cands) :
    (cands.find? fun t => wcOf t == listMaxWc cands).isSome = true := by
  rw [List.find?_isSome]
  obtain ⟨x, hx, hwx⟩ := listMaxWc_attained cands h
  exact ⟨x, hx, by simp [hwx]⟩

/-- The strict-improvement fold keeps the first candidate attaining the
maximal word count. -/
theorem foldl_bestStepT_eq (cands : List (List Char)) :
    ∀ st : List Char × Nat,
      cands.foldl bestStepT st =
        if listMaxWc cands ≤ st.2 then st
        else ((cands.find? fun t => wcOf t == listMaxWc cands).getD st.1, listMaxWc cands) := by
  induction cands with
  | nil =>
    intro st
    simp [listMaxWc]
  | cons t ts ih =>
    intro st
    rw [List.foldl_cons]
    by_cases hgt : wcOf t > st.2
    · have hstep : bestStepT st t = (t, wcOf t) := by rw [bestStepT, if_pos hgt]
      rw [hstep, ih]
      by_cases hts : listMaxWc ts ≤ wcOf t
      · have hmax : listMaxWc (t :: ts) = wcOf t := by rw [listMaxWc_cons]; omega
        rw [if_pos hts, if_neg (by rw [listMaxWc_cons]; omega), hmax]
        simp [List.find?_cons]
      · have hmax : listMaxWc (t :: ts) = listMaxWc ts := by rw [listMaxWc_cons]; omega
        rw [if_neg hts, if_neg (by rw [listMaxWc_cons]; omega), hmax]
        have hhead : (wcOf t == listMaxWc ts) = false := by
          simp only [beq_eq_false_iff_ne, ne_eq]
          omega
        simp only [List.find?_cons, hhead]
        have hpos : 0 < listMaxWc ts := by
          have := wcOf_pos t
          omega
        obtain ⟨x, hx⟩ := Option.isSome_iff_exists.mp (find?_maxWc_isSome ts hpos)
        rw [hx]
        simp
    · have hstep : bestStepT st t = st := by rw [bestStepT, if_neg hgt]
      rw [hstep, ih]
      by_cases hts : listMaxWc ts ≤ st.2
      · rw [if_pos hts, if_pos (by rw [listMaxWc_cons]; omega)]
      · have hmax : listMaxWc (t :: ts) = listMaxWc ts := by rw [listMaxWc_cons]; omega
        rw [if_neg hts, if_neg (by rw [listMaxWc_cons]; omega), hmax]
        have hhead : (wcOf t == listMaxWc ts) = false := by
          simp only [beq_eq_false_iff_ne, ne_eq]
          omega
        simp only [List.find?_cons, hhead]

/-- C6: `processWithTesseract` retains, among the successful attempts' trimmed
texts, the first one attaining the highest whitespace-split word count (ties
are won by the earlier attempt because a later result only replaces the best
when its count is strictly greater), and the winner is passed through
`cleanupText` before being returned. -/
theorem processWithTesseract_best_of_three (results : List (Option (List Char))) :
    processWithTesseract true results =
      Except.ok (cleanupText (specBestOfThree ((results.filterMap id).map jsTrim))) := by
  rw [processWithTesseract]
  simp only [Bool.not_true, Bool.false_eq_true, if_false]
  rw [foldl_bestStep_eq, foldl_bestStepT_eq]
  rcases h : (results.filterMap id).map jsTrim with _ | ⟨t, ts⟩
  · rw [if_pos (by simp [listMaxWc])]
    rfl
  · rw [if_neg (by have := listMaxWc_pos (t :: ts) (by simp); omega)]
    rfl

/-- C2 counterexample: when all three OCR attempts fail, `processWithTesseract`
does not surface an error — each failure is caught inside the loop and the
function returns normally with `cleanupText("")`, the empty string. -/
theorem processWithTesseract_all_fail_ok :
    processWithTesseract true [none, none, none] = Except.ok [] := by
  rfl

/-- C2 amended: a failed attempt is skipped without aborting the others (the
result only depends on the successful attempts, in order), and when the engine
is initialized the operation never surfaces an error: even when every attempt
fails it returns normally, with the empty string. -/
theorem processWithTesseract_skips_failures :
    (∀ results, processWithTesseract true results
        = processWithTesseract true ((results.filterMap id).map some)) ∧
      (∀ results, ∃ t, processWithTesseract true results = Except.ok t) ∧
      processWithTesseract true [none, none, none] = Except.ok [] := by
  refine ⟨?_, ?_, by rfl⟩
  · intro results
    rw [processWithTesseract, processWithTesseract]
    simp only [Bool.not_true, Bool.false_eq_true, if_false]
    rw [foldl_bestStep_eq, foldl_bestStep_eq]
    rw [List.filterMap_map]
    simp [Function.comp_def]
  · intro results
    exact ⟨_, rfl⟩

/-! ### parseLLMResponse and enhanceWithLLM (src/main.ts) -/

/-- The `LLMResponse` interface of the source: `tags` and `summary` are
optional fields, absent unless a corresponding section was parsed. -/
structure LLMResponse where
  text : List Char
  confidence : ℚ
  tags : Option (List (List Char)) := none
  summary : Option (List Char) := none

/-- JS `response.split("\n\n")`: split at each non-overlapping, leftmost
occurrence of a blank line. -/
def splitBlankLines : List Char → List (List Char)
  | '\n' :: '\n' :: rest => [] :: splitBlankLines rest
  | c :: rest =>
    match splitBlankLines rest with
    | [] => [[c]]
    | s :: ss => (c :: s) :: ss
  | [] => [[]]

/-- `section.startsWith("TEXT:")`. -/
def startsWithTEXT : List Char → Bool
  | 'T' :: 'E' :: 'X' :: 'T' :: ':' :: _ => true
  | _ => false

/-- `section.startsWith("TAGS:")`. -/
def startsWithTAGS : List Char → Bool
  | 'T' :: 'A' :: 'G' :: 'S' :: ':' :: _ => true
  | _ => false

/-- `section.startsWith("SUMMARY:")`. -/
def startsWithSUMMARY : List Char → Bool
  | 'S' :: 'U' :: 'M' :: 'M' :: 'A' :: 'R' :: 'Y' :: ':' :: _ => true
  | _ => false

/-- JS `str.split(sep)` for a one-character separator (used with `","`). -/
def splitOnChar (sep : Char) : List Char → List (List Char)
  | [] => [[]]
  | c :: rest =>
    if c = sep then [] :: splitOnChar sep rest
    else
      match splitOnChar sep rest with
      | [] => [[c]]
      | s :: ss => (c :: s) :: ss

/-- The TAGS-branch processing:
`section.replace("TAGS:","").trim().split(",").map(tag => tag.trim().toLowerCase()).filter(tag => tag.length > 0)`.
Under the `startsWith("TAGS:")` guard, `replace` removes exactly the 5-character
prefix, hence `drop 5`. -/
def parseTagsSection (s : List Char) : List (List Char) :=
  ((splitOnChar ',' (jsTrim (s.drop 5))).map fun t => (jsTrim t).map jsToLower).filter
    fun t => !t.isEmpty

/-- One iteration of the `for (const section of sections)` loop.  The TEXT and
SUMMARY branches do `section.replace(prefix, "").trim()`, i.e. drop the 5- or
8-character prefix (guarded by `startsWith`) and trim. -/
def parseStep (acc : LLMResponse) (s : List Char) : LLMResponse :=
  if startsWithTEXT s then { acc with text := jsTrim (s.drop 5) }
  else if startsWithTAGS s then { acc with tags := some (parseTagsSection s) }
  else if startsWithSUMMARY s then { acc with summary := some (jsTrim (s.drop 8)) }
  else acc

/-- `parseLLMResponse` (src/main.ts): split the response on blank lines and
assign each block by prefix, starting from `{ text: "", confidence: 0.9 }`. -/
def parseLLMResponse (response : List Char) : LLMResponse :=
  (splitBlankLines response).foldl parseStep { text := [], confidence := 9 / 10 }

/-- `enhanceWithLLM` (src/main.ts): the pass-through stub. -/
def enhanceWithLLM (text : List Char) : LLMResponse :=
  { text := text, confidence := 9 / 10 }

/-- C9: `enhanceWithLLM` returns its input text unchanged with fixed
confidence `0.9`, no tags and no summary. -/
theorem enhanceWithLLM_passthrough (text : List Char) :
    (enhanceWithLLM text).text = text ∧ (enhanceWithLLM text).confidence = 9 / 10 ∧
      (enhanceWithLLM text).tags = none ∧ (enhanceWithLLM text).summary = none :=
  ⟨rfl, rfl, rfl, rfl⟩

theorem text_not_tags (s : List Char) (h : startsWithTEXT s = true) :
    startsWithTAGS s = false := by
  rw [startsWithTEXT.eq_def] at h
  split at h
  · rfl
  · exact absurd h (by simp)

theorem text_not_summary (s : List Char) (h : startsWithTEXT s = true) :
    startsWithSUMMARY s = false := by
  rw [startsWithTEXT.eq_def] at h
  split at h
  · rfl
  · exact absurd h (by simp)

theorem tags_not_summary (s : List Char) (h : startsWithTAGS s = true) :
    startsWithSUMMARY s = false := by
  rw [startsWithTAGS.eq_def] at h
  split at h
  · rfl
  · exact absurd h (by simp)

theorem parseStep_text (acc : LLMResponse) (s : List Char) :
    (parseStep acc s).text = if startsWithTEXT s then jsTrim (s.drop 5) else acc.text := by
  rw [parseStep]
  by_cases h1 : startsWithTEXT s
  · rw [if_pos h1, if_pos h1]
  · rw [if_neg h1, if_neg h1]
    by_cases h2 : startsWithTAGS s
    · rw [if_pos h2]
    · rw [if_neg h2]
      by_cases h3 : startsWithSUMMARY s
      · rw [if_pos h3]
      · rw [if_neg h3]

theorem parseStep_tags (acc : LLMResponse) (s : List Char) :
    (parseStep acc s).tags =
      if startsWithTAGS s then some (parseTagsSection s) else acc.tags := by
  rw [parseStep]
  by_cases h1 : startsWithTEXT s
  · rw [if_pos h1, if_neg (by simp [text_not_tags s h1])]
  · rw [if_neg h1]
    by_cases h2 : startsWithTAGS s
    · rw [if_pos h2, if_pos h2]
    · rw [if_neg h2, if_neg h2]
      by_cases h3 : startsWithSUMMARY s
      · rw [if_pos h3]
      · rw [if_neg h3]

theorem parseStep_summary (acc : LLMResponse) (s : List Char) :
    (parseStep acc s).summary =
      if startsWithSUMMARY s then some (jsTrim (s.drop 8)) else acc.summary := by
  rw [parseStep]
  by_cases h1 : startsWithTEXT s
  · rw [if_pos h1, if_neg (by simp [text_not_summary s h1])]
  · rw [if_neg h1]
    by_cases h2 : startsWithTAGS s
    · rw [if_pos h2, if_neg (by simp [tags_not_summary s h2])]
    · rw [if_neg h2]
      by_cases h3 : startsWithSUMMARY s
      · rw [if_pos h3, if_pos h3]
      · rw [if_neg h3, if_neg h3]

theorem parseStep_confidence (acc : LLMResponse) (s : List Char) :
    (parseStep acc s).confidence = acc.confidence := by
  rw [parseStep]
  by_cases h1 : startsWithTEXT s
  · rw [if_pos h1]
  · rw [if_neg h1]
    by_cases h2 : startsWithTAGS s
    · rw [if_pos h2]
    · rw [if_neg h2]
      by_cases h3 : startsWithSUMMARY s
      · rw [if_pos h3]
      · rw [if_neg h3]

theorem parseFold_text (sections : List (List Char)) : ∀ acc : LLMResponse,
    (sections.foldl parseStep acc).text =
      match sections.reverse.find? startsWithTEXT with
      | some s => jsTrim (s.drop 5)
      | none => acc.text := by
  induction sections with
  | nil => intro acc; rfl
  | cons s ss ih =>
    intro acc
    rw [List.foldl_cons, ih, List.reverse_cons, List.find?_append]
    rcases hf : ss.reverse.find? startsWithTEXT with _ | t
    · by_cases hs : startsWithTEXT s
      · simp [Option.or, List.find?_cons, hs, parseStep_text]
      · simp [Option.or, List.find?_cons, hs, parseStep_text]
    · simp [Option.or]

theorem parseFold_tags (sections : List (List Char)) : ∀ acc : LLMResponse,
    (sections.foldl parseStep acc).tags =
      match sections.reverse.find? startsWithTAGS with
      | some s => some (parseTagsSection s)
      | none => acc.tags := by
  induction sections with
  | nil => intro acc; rfl
  | cons s ss ih =>
    intro acc
    rw [List.foldl_cons, ih, List.reverse_cons, List.find?_append]
    rcases hf : ss.reverse.find? startsWithTAGS with _ | t
    · by_cases hs : startsWithTAGS s
      · simp [Option.or, List.find?_cons, hs, parseStep_tags]
      · simp [Option.or, List.find?_cons, hs, parseStep_tags]
    · simp [Option.or]

theorem parseFold_summary (sections : List (List Char)) : ∀ acc : LLMResponse,
    (sections.foldl parseStep acc).summary =
      match sections.reverse.find? startsWithSUMMARY with
      | some s => some (jsTrim (s.drop 8))
      | none => acc.summary := by
  induction sections with
  | nil => intro acc; rfl
  | cons s ss ih =>
    intro acc
    rw [List.foldl_cons, ih, List.reverse_cons, List.find?_append]
    rcases hf : ss.reverse.find? startsWithSUMMARY with _ | t
    · by_cases hs : startsWithSUMMARY s
      · simp [Option.or, List.find?_cons, hs, parseStep_summary]
      · simp [Option.or, List.find?_cons, hs, parseStep_summary]
    · simp [Option.or]

theorem parseFold_confidence (sections : List (List Char)) : ∀ acc : LLMResponse,
    (sections.foldl parseStep acc).confidence = acc.confidence := by
  induction sections with
  | nil => intro acc; rfl
  | cons s ss ih =>
    intro acc
    rw [List.foldl_cons, ih, parseStep_confidence]

/-- C3 counterexample: on the response `"TEXT:a\n\nTEXT:b"`, which has two
blocks carrying the `TEXT:` prefix, the parser keeps the LAST one — the
loop reassigns `result.text` on every matching block — so the result text is
`"b"`, not the first block's `"a"` as the claim (first match wins) asserts. -/
theorem parseLLMResponse_first_match_loses :
    (parseLLMResponse ("TEXT:a\n\nTEXT:b".toList)).text = ['b'] ∧
      (['b'] : List Char) ≠ ['a'] := by
  constructor
  · rfl
  · decide

/-- C3 amended: `parseLLMResponse` splits the response on blank lines and
assigns each block to TEXT/TAGS/SUMMARY by prefix match, where the LAST
matching block per prefix wins (each later matching block overwrites the
earlier assignment); unmatched blocks are ignored, and the confidence is
fixed at `0.9`. -/
theorem parseLLMResponse_last_match_wins (response : List Char) :
    ((parseLLMResponse response).text =
        match (splitBlankLines response).reverse.find? startsWithTEXT with
        | some s => jsTrim (s.drop 5)
        | none => []) ∧
      ((parseLLMResponse response).tags =
        ((splitBlankLines response).reverse.find? startsWithTAGS).map parseTagsSection) ∧
      ((parseLLMResponse response).summary =
        ((splitBlankLines response).reverse.find? startsWithSUMMARY).map
          fun s => jsTrim (s.drop 8)) ∧
      (parseLLMResponse response).confidence = 9 / 10 := by
  refine ⟨?_, ?_, ?_, ?_⟩
  · rw [parseLLMResponse, parseFold_text]
  · rw [parseLLMResponse, parseFold_tags]
    rcases (splitBlankLines response).reverse.find? startsWithTAGS with _ | t <;> rfl
  · rw [parseLLMResponse, parseFold_summary]
    rcases (splitBlankLines response).reverse.find? startsWithSUMMARY with _ | t <;> rfl
  · rw [parseLLMResponse, parseFold_confidence]

/-! ### formatTag and generateTags (src/main.ts) -/

/-- The character class `[a-z0-9]`. -/
def isLowerAlnum (c : Char) : Bool :=
  ('a' ≤ c && c ≤ 'z') || ('0' ≤ c && c ≤ '9')

/-- The hyphen class of the hyphen-run collapsing replace in `formatTag`. -/
def isHyphen (c : Char) : Bool := c = '-'

/-- `.replace(/\s+/g, "-")`: a whitespace run becomes a single hyphen. -/
def collapseWsToHyphen : List Char → List Char :=
  collapseRuns isJsSpace (fun _ => '-') (fun r _ => r)

/-- The hyphen-run collapsing replace of `formatTag`: a hyphen run becomes a
single hyphen. -/
def collapseHyphens : List Char → List Char :=
  collapseRuns isHyphen (fun _ => '-') (fun r _ => r)

/-- Leading-hyphen removal of the final replace of `formatTag`. -/
def dropLeadHyphen : List Char → List Char
  | '-' :: t => t
  | l => l

/-- Trailing-hyphen removal of the final replace of `formatTag`. -/
def dropTrailHyphen (l : List Char) : List Char :=
  match l.getLast? with
  | some '-' => l.dropLast
  | _ => l

/-- The final replace of `formatTag` (anchored regex, global): it removes one
leading hyphen and one trailing hyphen when present. -/
def stripEdgeHyphens (l : List Char) : List Char :=
  dropTrailHyphen (dropLeadHyphen l)

/-- `formatTag` (src/main.ts): lowercase, whitespace runs to hyphens, strip
characters outside `[a-z0-9-]`, collapse hyphen runs, strip edge hyphens. -/
def formatTag (tag : List Char) : List Char :=
  stripEdgeHyphens (collapseHyphens
    ((collapseWsToHyphen (tag.map jsToLower)).filter fun c => isLowerAlnum c || isHyphen c))

/-- State machine for the pattern of §3 of the spec
(`[a-z0-9]` groups joined by single hyphens, at least one group):
`atStart = true` means the next character must open a group. -/
def matchesTagFrom : List Char → Bool → Bool
  | [], atStart => !atStart
  | c :: rest, true => isLowerAlnum c && matchesTagFrom rest false
  | c :: rest, false =>
    if c = '-' then matchesTagFrom rest true
    else isLowerAlnum c && matchesTagFrom rest false

/-- Modelled from the spec: the tag pattern, one or more groups of `[a-z0-9]`
characters joined by single hyphens (no leading, trailing or doubled
hyphen, nonempty). -/
def matchesTag (l : List Char) : Bool := matchesTagFrom l true

/-- The token list of `generateTags`:
`text.toLowerCase().split(/\s+/).map(w => w.replace(/[^a-z0-9]/g, "")).filter(w => w.length > 3)`. -/
def tagWords (text : List Char) : List (List Char) :=
  ((splitWs (text.map jsToLower)).map fun w => w.filter isLowerAlnum).filter
    fun w => 3 < w.length

/-- The stopword set of `isCommonWord` (src/main.ts). -/
def commonWordsMain : List (List Char) :=
  ["the", "and", "that", "have", "for", "not", "with", "you", "this", "but",
   "his", "from", "they", "say", "her", "she", "will", "one", "all", "would",
   "there", "their", "what", "out", "about", "who", "get", "which", "when", "make",
   "can", "like", "time", "just", "him", "know", "take", "into", "year", "your",
   "good", "some", "could", "them", "see", "other", "than", "then", "now", "look",
   "only", "come", "its", "over", "think", "also", "back", "after", "use", "two",
   "how", "our", "work", "first", "well", "way", "even", "new", "want", "because",
   "any", "these", "give", "day", "most", "cant"].map String.toList

/-- `isCommonWord` (src/main.ts): membership of the lowercased word in the
stopword set. -/
def isCommonWord (w : List Char) : Bool :=
  commonWordsMain.contains (w.map jsToLower)

/-- The smaller stopword set declared inside `generateTags` and used only by
its final bare-word loop. -/
def commonWordsInner : List (List Char) :=
  ["the", "and", "that", "have", "for", "not", "with", "you", "this", "but",
   "his", "from", "they", "say", "her", "she", "will", "one", "all", "would",
   "there", "their", "what", "out", "about", "who", "get", "which", "when", "make",
   "can", "like", "time", "just", "him", "know", "take"].map String.toList

/-- `tags.add`: a JS `Set` keeps insertion order and ignores duplicates. -/
def addTag (acc : List (List Char)) (t : List Char) : List (List Char) :=
  if t ∈ acc then acc else acc ++ [t]

/-- The single-word candidate of iteration `i` of the phrase loop:
`formatTag(words[i])`, added when longer than 3 and not a stopword. -/
def phraseStep1 (acc : List (List Char)) (w : List Char) : List (List Char) :=
  if 3 < (formatTag w).length && !isCommonWord (formatTag w) then addTag acc (formatTag w)
  else acc

/-- The two-word candidate `formatTag(words[i] + " " + words[i+1])`, added
when longer than 3 (no stopword check), when `i + 1` is in bounds. -/
def phraseStep2 (acc : List (List Char)) (w : List Char) : List (List Char) → List (List Char)
  | w2 :: _ =>
    if 3 < (formatTag (w ++ ' ' :: w2)).length then addTag acc (formatTag (w ++ ' ' :: w2))
    else acc
  | [] => acc

/-- The three-word candidate, when `i + 2` is in bounds. -/
def phraseStep3 (acc : List (List Char)) (w : List Char) : List (List Char) → List (List Char)
  | w2 :: w3 :: _ =>
    if 3 < (formatTag (w ++ ' ' :: w2 ++ ' ' :: w3)).length then
      addTag acc (formatTag (w ++ ' ' :: w2 ++ ' ' :: w3))
    else acc
  | _ => acc

/-- The indexed phrase loop of `generateTags`, expressed on the suffixes of
the word list: at position `i` it considers `words[i]`, the two-word phrase
and the three-word phrase (when in bounds), each through `formatTag`. -/
def phraseLoop (acc : List (List Char)) : List (List Char) → List (List Char)
  | [] => acc
  | w :: rest => phraseLoop (phraseStep3 (phraseStep2 (phraseStep1 acc w) w rest) w rest) rest

/-- The final loop of `generateTags`: every word not in the inner stopword
set is added as a tag as-is. -/
def bareWordLoop (acc : List (List Char)) (ws : List (List Char)) : List (List Char) :=
  ws.foldl (fun a w => if !commonWordsInner.contains w then addTag a w else a) acc

/-- `generateTags` (src/main.ts): phrase candidates first, then bare words;
`Array.from(tags)` returns the insertion-ordered deduplicated list. -/
def generateTags (text : List Char) : List (List Char) :=
  bareWordLoop (phraseLoop [] (tagWords text)) (tagWords text)

/-- C8: `generateTags` is a total function (the embedding is a plain
structurally recursive definition, and the source contains no `throw` on this
path), and on the empty input it returns the empty tag set. -/
theorem generateTags_empty : generateTags [] = [] := by rfl

theorem dropLeadHyphen_subset (l : List Char) : ∀ x ∈ dropLeadHyphen l, x ∈ l := by
  intro x hx
  rw [dropLeadHyphen.eq_def] at hx
  split at hx
  · exact List.mem_cons_of_mem _ hx
  · exact hx

theorem dropTrailHyphen_subset (l : List Char) : ∀ x ∈ dropTrailHyphen l, x ∈ l := by
  intro x hx
  rw [dropTrailHyphen] at hx
  split at hx
  · exact (List.dropLast_prefix l).subset hx
  · exact hx

theorem stripEdgeHyphens_subset (l : List Char) : ∀ x ∈ stripEdgeHyphens l, x ∈ l :=
  fun x hx => dropLeadHyphen_subset l x (dropTrailHyphen_subset _ x hx)

theorem dropLeadHyphen_chain (l : List Char) (h : NoRun isHyphen l) :
    NoRun isHyphen (dropLeadHyphen l) := by
  rw [dropLeadHyphen.eq_def]
  split
  · exact List.Chain'.tail h
  · exact h

theorem dropTrailHyphen_chain (l : List Char) (h : NoRun isHyphen l) :
    NoRun isHyphen (dropTrailHyphen l) := by
  rw [dropTrailHyphen]
  split
  · exact List.Chain'.init h
  · exact h

theorem dropLeadHyphen_head (l : List Char) (h : NoRun isHyphen l) :
    (dropLeadHyphen l).head? ≠ some '-' ∨ dropLeadHyphen l = [] := by
  rw [dropLeadHyphen.eq_def]
  split
  · rename_i t
    cases t with
    | nil => exact Or.inr rfl
    | cons b u =>
      left
      have hne := (List.chain'_cons'.mp h).1 b (by simp)
      simp only [List.head?_cons, ne_eq, Option.some.injEq]
      intro hb
      exact hne (by simp [isHyphen, hb])
  · rename_i hnot
    cases l with
    | nil => exact Or.inr rfl
    | cons c t =>
      left
      simp only [List.head?_cons, ne_eq, Option.some.injEq]
      intro hc
      exact hnot t (by rw [hc])

theorem chain'_last_dropLast {R : Char → Char → Prop} :
    ∀ l : List Char, List.Chain' R l → ∀ x y, l.getLast? = some x →
      l.dropLast.getLast? = some y → R y x := by
  intro l
  induction l with
  | nil => intro _ x y hx _; simp at hx
  | cons a t ih =>
    intro hch x y hx hy
    cases t with
    | nil => simp at hy
    | cons b u =>
      cases u with
      | nil =>
        have hR : R a b := (List.chain'_cons'.mp hch).1 b (by simp)
        have hxb : b = x := by simpa using hx
        have hya : a = y := by simpa using hy
        rw [← hxb, ← hya]
        exact hR
      | cons cc v =>
        have hx' : (b :: cc :: v).getLast? = some x := by simpa using hx
        have hy' : (b :: cc :: v).dropLast.getLast? = some y := by
          rw [List.dropLast_cons₂] at hy
          rw [List.dropLast_cons₂]
          simpa using hy
        exact ih hch.tail x y hx' hy'

theorem isPrefix_head? {l₁ l₂ : List Char} (h : l₁ <+: l₂) (hne : l₁ ≠ []) :
    l₁.head? = l₂.head? := by
  obtain ⟨t, rfl⟩ := h
  cases l₁ with
  | nil => exact absurd rfl hne
  | cons c u => rfl

theorem dropTrailHyphen_last (l : List Char) (h : NoRun isHyphen l) :
    (dropTrailHyphen l).getLast? ≠ some '-' ∨ dropTrailHyphen l = [] := by
  rw [dropTrailHyphen]
  split
  · rename_i hlast
    rcases hd : l.dropLast.getLast? with _ | y
    · right
      simpa using hd
    · left
      have hR := chain'_last_dropLast l h '-' y hlast hd
      simp only [ne_eq, Option.some.injEq]
      intro hy
      exact hR (by simp [isHyphen, hy])
  · rename_i hnot
    rcases hl : l.getLast? with _ | c
    · right
      rw [List.getLast?_eq_none_iff] at hl
      exact hl
    · left
      simp only [ne_eq, Option.some.injEq]
      intro hc
      exact hnot (by rw [hl, hc])

theorem dropTrailHyphen_head (l : List Char) (hne : dropTrailHyphen l ≠ []) :
    (dropTrailHyphen l).head? = l.head? := by
  rcases hl : l.getLast? with _ | c
  · have : l = [] := List.getLast?_eq_none_iff.mp hl
    subst this
    rfl
  · by_cases hc : c = '-'
    · subst hc
      have hd : dropTrailHyphen l = l.dropLast := by
        rw [dropTrailHyphen, hl]
        rfl
      rw [hd] at hne ⊢
      exact isPrefix_head? (List.dropLast_prefix l) hne
    · have hd : dropTrailHyphen l = l := by
        rw [dropTrailHyphen, hl]
        split
        · rename_i heq
          exact absurd (by simpa using heq) hc
        · rfl
      rw [hd]

theorem matchesFrom_ok : ∀ l : List Char,
    (∀ c ∈ l, isLowerAlnum c = true ∨ c = '-') →
    NoRun isHyphen l →
    l.getLast? ≠ some '-' →
    (matchesTagFrom l false = true ∧
      (l.head? ≠ some '-' → l ≠ [] → matchesTagFrom l true = true)) := by
  intro l
  induction l with
  | nil =>
    intro _ _ _
    exact ⟨rfl, fun _ hne => absurd rfl hne⟩
  | cons c rest ih =>
    intro hchars hchain hlast
    have hchars' : ∀ d ∈ rest, isLowerAlnum d = true ∨ d = '-' :=
      fun d hd => hchars d (by simp [hd])
    have hlast' : rest.getLast? ≠ some '-' := by
      cases rest with
      | nil => simp
      | cons b u =>
        intro hcon
        exact hlast (by simpa using hcon)
    have hrest := ih hchars' hchain.tail hlast'
    by_cases hc : c = '-'
    · subst hc
      constructor
      · show matchesTagFrom ('-' :: rest) false = true
        rw [matchesTagFrom]
        rw [if_pos rfl]
        cases rest with
        | nil => exact absurd (show List.getLast? ['-'] = some '-' from rfl) hlast
        | cons b u =>
          have hb : b ≠ '-' := by
            have := (List.chain'_cons'.mp hchain).1 b (by simp)
            intro hbe
            exact this (by simp [isHyphen, hbe])
          exact hrest.2 (by simpa using hb) (by simp)
      · intro hhead _
        exact absurd (show List.head? ('-' :: rest) = some '-' from rfl) hhead
    · have halnum : isLowerAlnum c = true := by
        rcases hchars c (by simp) with h | h
        · exact h
        · exact absurd h hc
      have hfalse : matchesTagFrom (c :: rest) false = true := by
        rw [matchesTagFrom, if_neg hc]
        rw [halnum]
        simp only [Bool.true_and]
        exact hrest.1
      refine ⟨hfalse, fun _ _ => ?_⟩
      show matchesTagFrom (c :: rest) true = true
      rw [matchesTagFrom, halnum]
      simp only [Bool.true_and]
      exact hrest.1

/-- The output of `formatTag` is either empty or matches the tag pattern. -/
theorem formatTag_ok (s : List Char) :
    formatTag s = [] ∨ matchesTag (formatTag s) = true := by
  rw [formatTag]
  set m := collapseHyphens
    ((collapseWsToHyphen (s.map jsToLower)).filter fun c => isLowerAlnum c || isHyphen c)
    with hm
  have hchars_m : ∀ c ∈ m, isLowerAlnum c = true ∨ c = '-' := by
    intro c hc
    rw [hm, collapseHyphens, collapseRuns] at hc
    refine collapseRunsGo_out isHyphen (fun _ => '-') (fun r _ => r)
      (fun c => isLowerAlnum c = true ∨ c = '-') (fun _ => Or.inr rfl) (fun r _ hq => hq)
      _ none ?_ (by simp) c hc
    intro d hd _
    have := List.of_mem_filter hd
    rcases Bool.or_eq_true_iff.mp this with h | h
    · exact Or.inl h
    · exact Or.inr (by simpa [isHyphen] using h)
  have hchain_m : NoRun isHyphen m := by
    rw [hm, collapseHyphens, collapseRuns]
    exact collapseRunsGo_noRun isHyphen (fun _ => '-') (fun r _ => r) _ none
  rw [stripEdgeHyphens]
  set l1 := dropLeadHyphen m with hl1
  have hchain_l1 : NoRun isHyphen l1 := dropLeadHyphen_chain m hchain_m
  have hhead_l1 := dropLeadHyphen_head m hchain_m
  set r := dropTrailHyphen l1 with hr
  rcases hres : r with _ | ⟨c, t⟩
  · exact Or.inl rfl
  · right
    have hrne : r ≠ [] := by rw [hres]; simp
    have hchain_r : NoRun isHyphen r := dropTrailHyphen_chain l1 hchain_l1
    have hchars_r : ∀ d ∈ r, isLowerAlnum d = true ∨ d = '-' := by
      intro d hd
      exact hchars_m d (dropLeadHyphen_subset m d (dropTrailHyphen_subset l1 d hd))
    have hlast_r : r.getLast? ≠ some '-' := by
      rcases dropTrailHyphen_last l1 hchain_l1 with hok | hemp
      · exact hr ▸ hok
      · exact absurd (hr.trans hemp) hrne
    have hhead_r : r.head? ≠ some '-' := by
      have hpres := dropTrailHyphen_head l1 (hr ▸ hrne)
      rcases hhead_l1 with hok | hemp
      · rw [hr, hpres]
        exact hok
      · exfalso
        apply hrne
        rw [hr, hl1, hemp]
        rfl
    have := (matchesFrom_ok r hchars_r hchain_r hlast_r).2 hhead_r hrne
    rw [matchesTag, ← hres]
    exact this

/-- The invariant of C4: a tag matches the pattern and is longer than 3. -/
def TagOk (t : List Char) : Prop := matchesTag t = true ∧ 3 < t.length

theorem addTag_preserve (acc : List (List Char)) (t : List Char) (P : List Char → Prop)
    (hacc : ∀ x ∈ acc, P x) (ht : P t) : ∀ x ∈ addTag acc t, P x := by
  intro x hx
  rw [addTag] at hx
  split at hx
  · exact hacc x hx
  · rcases List.mem_append.mp hx with h | h
    · exact hacc x h
    · rw [List.mem_singleton.mp h]
      exact ht

theorem formatTag_tagOk (t : List Char) (hlen : 3 < (formatTag t).length) :
    TagOk (formatTag t) := by
  rcases formatTag_ok t with h | h
  · rw [h] at hlen
    simp at hlen
  · exact ⟨h, hlen⟩

theorem phraseStep1_inv (acc : List (List Char)) (w : List Char)
    (hacc : ∀ x ∈ acc, TagOk x) : ∀ x ∈ phraseStep1 acc w, TagOk x := by
  rw [phraseStep1]
  split
  · rename_i hcond
    have hlen : 3 < (formatTag w).length := by
      have := (Bool.and_eq_true_iff.mp hcond).1
      simpa using this
    exact addTag_preserve acc _ TagOk hacc (formatTag_tagOk w hlen)
  · exact hacc

theorem phraseStep2_inv (acc : List (List Char)) (w : List Char) (rest : List (List Char))
    (hacc : ∀ x ∈ acc, TagOk x) : ∀ x ∈ phraseStep2 acc w rest, TagOk x := by
  rw [phraseStep2.eq_def]
  split
  · split
    · rename_i hcond
      exact addTag_preserve acc _ TagOk hacc (formatTag_tagOk _ hcond)
    · exact hacc
  · exact hacc

theorem phraseStep3_inv (acc : List (List Char)) (w : List Char) (rest : List (List Char))
    (hacc : ∀ x ∈ acc, TagOk x) : ∀ x ∈ phraseStep3 acc w rest, TagOk x := by
  rw [phraseStep3.eq_def]
  split
  · split
    · rename_i hcond
      exact addTag_preserve acc _ TagOk hacc (formatTag_tagOk _ hcond)
    · exact hacc
  · exact hacc

theorem phraseLoop_inv : ∀ (ws : List (List Char)) (acc : List (List Char)),
    (∀ x ∈ acc, TagOk x) → ∀ x ∈ phraseLoop acc ws, TagOk x := by
  intro ws
  induction ws with
  | nil =>
    intro acc hacc x hx
    rw [phraseLoop] at hx
    exact hacc x hx
  | cons w rest ih =>
    intro acc hacc x hx
    rw [phraseLoop] at hx
    exact ih _ (phraseStep3_inv _ w rest (phraseStep2_inv _ w rest (phraseStep1_inv acc w hacc))) x hx

theorem matchesTagFrom_alnum : ∀ l : List Char, (∀ c ∈ l, isLowerAlnum c = true) →
    matchesTagFrom l false = true ∧ (l ≠ [] → matchesTagFrom l true = true) := by
  intro l
  induction l with
  | nil => exact fun _ => ⟨rfl, fun h => absurd rfl h⟩
  | cons c rest ih =>
    intro hchars
    have hc : isLowerAlnum c = true := hchars c (by simp)
    have hne : c ≠ '-' := by
      intro hcon
      rw [hcon] at hc
      exact absurd hc (by decide)
    have hrest := ih fun d hd => hchars d (by simp [hd])
    constructor
    · rw [matchesTagFrom, if_neg hne, hc]
      simpa using hrest.1
    · intro _
      rw [matchesTagFrom, hc]
      simpa using hrest.1

theorem tagWords_mem (text : List Char) (w : List Char) (hw : w ∈ tagWords text) :
    3 < w.length ∧ ∀ c ∈ w, isLowerAlnum c = true := by
  rw [tagWords] at hw
  have hlen := List.of_mem_filter hw
  have hmem := List.mem_of_mem_filter hw
  refine ⟨by simpa using hlen, ?_⟩
  rcases List.mem_map.mp hmem with ⟨w0, _, rfl⟩
  intro c hc
  exact List.of_mem_filter hc

theorem tagWords_tagOk (text : List Char) (w : List Char) (hw : w ∈ tagWords text) :
    TagOk w := by
  obtain ⟨hlen, hchars⟩ := tagWords_mem text w hw
  have hne : w ≠ [] := by
    intro hcon
    rw [hcon] at hlen
    simp at hlen
  exact ⟨(matchesTagFrom_alnum w hchars).2 hne, hlen⟩

theorem bareWordLoop_inv (text : List Char) : ∀ (ws : List (List Char)),
    (∀ w ∈ ws, w ∈ tagWords text) → ∀ acc, (∀ x ∈ acc, TagOk x) →
      ∀ x ∈ bareWordLoop acc ws, TagOk x := by
  intro ws
  induction ws with
  | nil =>
    intro _ acc hacc x hx
    exact hacc x hx
  | cons w rest ih =>
    intro hws acc hacc x hx
    rw [bareWordLoop, List.foldl_cons] at hx
    refine ih (fun v hv => hws v (by simp [hv])) _ ?_ x hx
    dsimp only
    split
    · exact addTag_preserve acc w TagOk hacc (tagWords_tagOk text w (hws w (by simp)))
    · exact hacc

/-- C4 amended part (a): every tag produced by `generateTags` matches the
pattern and has length greater than 3. -/
theorem generateTags_tagOk (text : List Char) (t : List Char)
    (ht : t ∈ generateTags text) : matchesTag t = true ∧ 3 < t.length := by
  rw [generateTags] at ht
  exact bareWordLoop_inv text (tagWords text) (fun w hw => hw) _
    (phraseLoop_inv (tagWords text) [] (by simp)) t ht

/-- C4 counterexample: `formatTag` alone does not guarantee the invariant:
`formatTag "ab" = "ab"`, which has length `2`, not greater than `3` — the
length bound is only enforced by the callers, which discard short results. -/
theorem formatTag_counterexample :
    formatTag ['a', 'b'] = ['a', 'b'] ∧
      ¬(matchesTag (formatTag ['a', 'b']) = true ∧ 3 < (formatTag ['a', 'b']).length) := by
  constructor
  · rfl
  · decide

/-- C4 amended: every tag returned by `generateTags` matches the pattern
(lowercase alphanumeric groups joined by single hyphens) and has length
greater than 3; the output of `formatTag` itself is only guaranteed to be
empty or to match the pattern — it can be 3 characters or shorter, and the
length requirement is enforced by its callers. -/
theorem tag_format_invariant :
    (∀ text t, t ∈ generateTags text → matchesTag t = true ∧ 3 < t.length) ∧
      ∀ s, formatTag s = [] ∨ matchesTag (formatTag s) = true :=
  ⟨generateTags_tagOk, formatTag_ok⟩

/-- C4 witness: the amended invariant applied to the tag `"hello"` produced
by `generateTags` on the concrete input `"hello world"`. -/
theorem tag_format_invariant_witness :
    ("hello".toList ∈ generateTags ("hello world".toList)) ∧
      matchesTag ("hello".toList) = true ∧ 3 < ("hello".toList).length :=
  ⟨by decide, tag_format_invariant.1 ("hello world".toList) ("hello".toList) (by decide)⟩

/-! ### findRelatedNotes (src/main.ts)

The store is modelled as the enumeration of the vault's markdown files as
(basename, content) pairs, in the store's iteration order; `vault.read`
is the content component. -/

/-- `findRelatedNotes` (src/main.ts): push `file.basename` for every file
whose content's similarity against the note text strictly exceeds `0.3`;
short-circuits to the empty list when auto-backlinks are disabled. -/
def findRelatedNotes (enableAutoBacklinks : Bool) (text : List Char)
    (files : List (List Char × List Char)) : List (List Char) :=
  if !enableAutoBacklinks then []
  else
    files.foldl
      (fun acc f => if calculateSimilarity text f.2 > 3 / 10 then acc ++ [f.1] else acc) []

theorem findRelatedNotes_foldl (text : List Char) :
    ∀ (files : List (List Char × List Char)) (acc : List (List Char)),
      files.foldl
          (fun acc f => if calculateSimilarity text f.2 > 3 / 10 then acc ++ [f.1] else acc)
          acc =
        acc ++ (files.filter fun f => calculateSimilarity text f.2 > 3 / 10).map Prod.fst := by
  intro files
  induction files with
  | nil => intro acc; simp
  | cons f fs ih =>
    intro acc
    rw [List.foldl_cons]
    by_cases hf : calculateSimilarity text f.2 > 3 / 10
    · rw [if_pos hf, ih, List.filter_cons_of_pos (by simpa using hf)]
      simp
    · rw [if_neg hf, ih, List.filter_cons_of_neg (by simpa using hf)]

/-- C7: with auto-backlinks enabled, `findRelatedNotes` returns exactly the
basenames of the store's documents whose similarity against the note text
strictly exceeds the fixed threshold `0.3` (a score of exactly `0.3` is not
related), in the store's enumeration order; with the toggle disabled it
returns nothing. -/
theorem findRelatedNotes_threshold (text : List Char)
    (files : List (List Char × List Char)) :
    (findRelatedNotes true text files =
        (files.filter fun f => calculateSimilarity text f.2 > 3 / 10).map Prod.fst) ∧
      (∀ b, b ∈ findRelatedNotes true text files ↔
        ∃ content, (b, content) ∈ files ∧ calculateSimilarity text content > 3 / 10) ∧
      findRelatedNotes false text files = [] := by
  have hmain : findRelatedNotes true text files =
      (files.filter fun f => calculateSimilarity text f.2 > 3 / 10).map Prod.fst := by
    rw [findRelatedNotes]
    simp only [Bool.not_true, Bool.false_eq_true, if_false]
    rw [findRelatedNotes_foldl]
    simp
  refine ⟨hmain, ?_, rfl⟩
  intro b
  rw [hmain]
  constructor
  · intro hb
    rcases List.mem_map.mp hb with ⟨⟨b', content⟩, hmem, rfl⟩
    refine ⟨content, List.mem_of_mem_filter hmem, ?_⟩
    have := List.of_mem_filter hmem
    simpa using this
  · rintro ⟨content, hmem, hsim⟩
    exact List.mem_map.mpr ⟨(b, content),
      List.mem_filter.mpr ⟨hmem, by simpa using hsim⟩, rfl⟩

end NoteCap
